import Mathlib

/-!
Verification of the `alr` active-learning library's pool bookkeeping
(`alr.data.UnlabelledDataset`, `alr.data.DataManager`), the pseudo-label
annealing schedule (`alr.training.pseudo_label_trainer.Annealer`), and the
max-entropy acquisition function (`MaxEnt` from the cifar10 baselines).

Pool items are shallowly embedded as pairs of naturals; tensor bookkeeping
(`torch.ones`, `torch.arange`, `torch.nonzero`, fancy indexing) is embedded
over `List`; python exceptions become `Except`/`Option`; float arithmetic in
`MaxEnt` is embedded as rationals extended with one absorbing non-finite
value.
-/

namespace ALR

/-- Pool items are modelled as (feature, label) pairs of naturals. -/
abbrev Item := ℕ × ℕ

/-- The error taxonomy raised by the embedded code. -/
inductive Err where
  | indexError
  | alreadyLabelled
  | emptyPool
  | poolExhausted
  | shapeMismatch
  | nonFiniteScore
  deriving DecidableEq, Repr

/-- `torch.nonzero(mask).flatten()`: ascending positions where `mask` is true. -/
def truePositions (mask : List Bool) : List ℕ :=
  (List.range mask.length).filter (fun i => mask.getD i false)

/-- Number of true entries of a boolean mask. -/
def countTrue (mask : List Bool) : ℕ := mask.count true

/-- Normalisation of a (possibly negative) python/torch index against length `n`. -/
def resolveIdx (n : ℕ) (i : ℤ) : Option ℕ :=
  if 0 ≤ i ∧ i < (n : ℤ) then some i.toNat
  else if -(n : ℤ) ≤ i ∧ i < 0 then some ((n : ℤ) + i).toNat
  else none

/-- Fancy indexing `tr[idxs]` of a 1-D index tensor: every index is resolved
against `tr`; an out-of-range index raises IndexError (`none`). -/
def lookupAll (tr : List ℕ) (idxs : List ℤ) : Option (List ℕ) :=
  match idxs with
  | [] => some []
  | i :: rest =>
    match resolveIdx tr.length i with
    | none => none
    | some j =>
      match tr[j]? with
      | none => none
      | some p =>
        match lookupAll tr rest with
        | none => none
        | some ps => some (p :: ps)

/-- `mask[ps] = 0`: set every listed position of the mask to false. -/
def setFalseAll (mask : List Bool) (ps : List ℕ) : List Bool :=
  ps.foldl (fun m p => m.set p false) mask

/-- State of `alr.data.UnlabelledDataset`. -/
structure UD where
  data : List Item
  labelFn : Option (Item → Item)
  debug : Bool
  mask : List Bool
  idxMask : List ℕ
  len : ℤ

/-- `UnlabelledDataset.__init__`. -/
def mkUD (data : List Item) (labelFn : Option (Item → Item)) (debug : Bool) : UD :=
  { data := data, labelFn := labelFn, debug := debug,
    mask := List.replicate data.length true,
    idxMask := List.range data.length,
    len := (data.length : ℤ) }

/-- `UnlabelledDataset.label`: checks (through the current translation) that the
requested points are unlabelled and the pool nonempty, builds the labelled
subset (optionally mapped through `label_fn`), then zeroes the mask at the
selected absolute positions, recomputes the translation, and decrements the
length counter by the number of requested indices. -/
def UD.label (st : UD) (idxs : List ℤ) : Except Err (List Item × UD) :=
  match lookupAll st.idxMask idxs with
  | none => .error .indexError
  | some ps =>
    if ¬ ps.all (fun p => st.mask.getD p false) then .error .alreadyLabelled
    else if st.len = 0 then .error .emptyPool
    else
      let subset := ps.map (fun p => st.data.getD p (0, 0))
      let labelled := match st.labelFn with
        | some f => subset.map f
        | none => subset
      let mask2 := setFalseAll st.mask ps
      .ok (labelled,
        { st with
            mask := mask2,
            idxMask := truePositions mask2,
            len := st.len - (idxs.length : ℤ) })

/-- `UnlabelledDataset.__getitem__`; `.inl` is the raw backing item,
`.inr` its first component (the feature alone). -/
def UD.getItem (st : UD) (i : ℤ) : Option (Item ⊕ ℕ) :=
  match resolveIdx st.idxMask.length i with
  | none => none
  | some j =>
    match st.idxMask[j]? with
    | none => none
    | some p =>
      match st.data[p]? with
      | none => none
      | some it =>
        if st.labelFn.isSome || st.debug then some (.inl it)
        else some (.inr it.1)

/-- `UnlabelledDataset.convert_idx`. -/
def UD.convertIdx (st : UD) (idxs : List ℤ) : Option (List ℕ) :=
  lookupAll st.idxMask idxs

/-- `UnlabelledDataset.reset`. -/
def UD.reset (st : UD) : UD :=
  { st with
      mask := List.replicate st.data.length true,
      idxMask := List.range st.data.length,
      len := (st.data.length : ℤ) }

/-- `UnlabelledDataset.true_labels`, scope entry: from the current flag,
the new flag value and which branch of the context manager was taken. -/
def enterTL (debug : Bool) : Bool × Bool :=
  if debug then (debug, true) else (true, false)

/-- `UnlabelledDataset.true_labels`, scope exit for the branch `was`
recorded at entry, applied to the flag value `debug` at exit time. -/
def exitTL (was : Bool) (debug : Bool) : Bool :=
  if was then debug else false

/-- Well-nested uses of the `true_labels` scope:
`node inner next` enters a scope, runs `inner` within it, exits,
then runs `next` after it. -/
inductive Scopes where
  | done : Scopes
  | node : Scopes → Scopes → Scopes

/-- The debug flag after running a well-nested collection of
`true_labels` scopes starting from flag value `d`. -/
def runScopes : Scopes → Bool → Bool
  | .done, d => d
  | .node inner next, d =>
    let e := enterTL d
    runScopes next (exitTL e.2 (runScopes inner e.1))

/-- The bookkeeping invariant of `UnlabelledDataset` (mask/translation/length). -/
def UD.good (st : UD) : Prop :=
  st.mask.length = st.data.length ∧
  st.idxMask = truePositions st.mask ∧
  (countTrue st.mask : ℤ) = st.len

/-- State of `alr.data.DataManager`. -/
structure DM where
  oldLabelled : List Item
  labelled : List Item
  ud : UD

/-- `DataManager.__init__`. -/
def mkDM (labelled : List Item) (ud : UD) : DM :=
  { oldLabelled := labelled, labelled := labelled, ud := ud }

/-- `DataManager.n_labelled`. -/
def DM.nLabelled (dm : DM) : ℕ := dm.labelled.length

/-- `DataManager.n_unlabelled` (`len(self._unlabelled)` returns `self._len`). -/
def DM.nUnlabelled (dm : DM) : ℤ := dm.ud.len

/-- `DataManager.append_to_labelled` (ConcatDataset). -/
def DM.appendToLabelled (dm : DM) (ds : List Item) : DM :=
  { dm with labelled := dm.labelled ++ ds }

/-- `DataManager.acquire`. The acquisition function (with any `transform`
pre-composed) is passed as `afn`. Checks `b <= n_unlabelled`, runs `afn`,
checks the shape of its result, converts logical indices to absolute indices
through the pre-mutation translation, then labels and appends. -/
def DM.acquire (dm : DM) (b : ℕ) (afn : UD → ℕ → List ℤ) :
    Except Err (List ℕ × List Item × DM) :=
  if ¬ ((b : ℤ) ≤ dm.ud.len) then .error .poolExhausted
  else
    let idxs := afn dm.ud b
    if idxs.length ≠ b then .error .shapeMismatch
    else
      match dm.ud.convertIdx idxs with
      | none => .error .indexError
      | some trueIdxs =>
        match dm.ud.label idxs with
        | .error e => .error e
        | .ok (lab, ud2) => .ok (trueIdxs, lab, { dm.appendToLabelled lab with ud := ud2 })

/-- `DataManager.reset`. -/
def DM.reset (dm : DM) : DM :=
  { dm with ud := dm.ud.reset, labelled := dm.oldLabelled }

/-- A sequence of `acquire` calls; each element carries the batch size and the
acquisition function used for that call. -/
def runAcquires (dm : DM) : List (ℕ × (UD → ℕ → List ℤ)) → Except Err DM
  | [] => .ok dm
  | (b, f) :: rest =>
    match dm.acquire b f with
    | .error e => .error e
    | .ok (_, _, dm2) => runAcquires dm2 rest

/-- State of `alr.training.pseudo_label_trainer.Annealer`. -/
structure Annealer where
  step : ℤ
  T1 : ℤ
  T2 : ℤ
  alpha : ℚ

/-- `Annealer.step` (the method): advance the counter by one. -/
def Annealer.step' (a : Annealer) : Annealer := { a with step := a.step + 1 }

/-- `Annealer.weight`. -/
def Annealer.weight (a : Annealer) : ℚ :=
  if a.step < a.T1 then 0
  else if a.step > a.T2 then a.alpha
  else (((a.step - a.T1 : ℤ) : ℚ) / ((a.T2 - a.T1 : ℤ) : ℚ)) * a.alpha

/-- The control-flow condition under which `Annealer.weight` reaches its final
(linear-ramp) branch: neither guard fires. -/
def Annealer.rampTaken (a : Annealer) : Prop :=
  ¬ (a.step < a.T1) ∧ ¬ (a.step > a.T2)

instance (a : Annealer) : Decidable a.rampTaken := by
  unfold Annealer.rampTaken; infer_instance

/-- The annealing schedule exactly as the specification writes it. -/
def specWeight (t T1 T2 : ℤ) (alpha : ℚ) : ℚ :=
  if t < T1 then 0
  else if t > T2 then alpha
  else alpha * ((t - T1 : ℤ) : ℚ) / ((T2 - T1 : ℤ) : ℚ)

/-- A float value: finite rationals, plus one absorbing non-finite value
(inf, -inf and nan collapsed). -/
inductive F where
  | fin : ℚ → F
  | nonfin : F
  deriving DecidableEq, Repr

/-- `torch.isfinite` on the float model. -/
def F.isFinite : F → Bool
  | .fin _ => true
  | .nonfin => false

/-- The rational carried by a finite float value (0 for the non-finite value). -/
def F.val : F → ℚ
  | .fin q => q
  | .nonfin => 0

/-- Multiplication on the float model. -/
def F.mul : F → F → F
  | .fin a, .fin b => .fin (a * b)
  | _, _ => .nonfin

/-- Addition on the float model. -/
def F.add : F → F → F
  | .fin a, .fin b => .fin (a + b)
  | _, _ => .nonfin

/-- Negation on the float model. -/
def F.neg : F → F
  | .fin a => .fin (-a)
  | .nonfin => .nonfin

/-- `exp` on the float model; its action on finite values is kept abstract as
`e`, since the claims depend on no analytic property of it. -/
def F.exp (e : ℚ → ℚ) : F → F
  | .fin a => .fin (e a)
  | .nonfin => .nonfin

/-- One row of `entropy = -(preds_N_C.exp() * preds_N_C).sum(dim=1)`. -/
def entropyRow (e : ℚ → ℚ) (row : List F) : F :=
  F.neg ((row.map (fun p => F.mul (F.exp e p) p)).foldr F.add (F.fin 0))

/-- `torch.argsort(v, descending=True)`. -/
def argsortDesc (v : List ℚ) : List ℕ :=
  (List.range v.length).mergeSort (fun i j => decide (v.getD j 0 ≤ v.getD i 0))

/-- `MaxEnt.__call__` applied to the matrix of per-item log-probabilities that
`pred_fn` produces over the pool view (one row per pool item, in pool order;
the data loader is asserted unshuffled). Returns the selected logical indices
together with `recent_score`, the full entropy vector. -/
def maxEntCall (e : ℚ → ℚ) (preds : List (List F)) (b : ℕ) :
    Except Err (List ℕ × List F) :=
  let entropy := preds.map (entropyRow e)
  if ¬ (entropy.all F.isFinite) then .error .nonFiniteScore
  else .ok ((argsortDesc (entropy.map F.val)).take b, entropy)

theorem mem_truePositions {mask : List Bool} {p : ℕ} :
    p ∈ truePositions mask ↔ p < mask.length ∧ mask.getD p false = true := by
  simp [truePositions, List.mem_filter, List.mem_range]

theorem truePositions_sorted (mask : List Bool) :
    (truePositions mask).Pairwise (· < ·) :=
  List.Pairwise.sublist (List.filter_sublist _) (List.pairwise_lt_range _)

theorem truePositions_nodup (mask : List Bool) : (truePositions mask).Nodup :=
  List.Nodup.sublist (List.filter_sublist _) (List.nodup_range _)

theorem truePositions_cons (b : Bool) (m : List Bool) :
    truePositions (b :: m) =
      (if b then [0] else []) ++ (truePositions m).map Nat.succ := by
  unfold truePositions
  rw [List.length_cons, List.range_succ_eq_map, List.filter_cons, List.filter_map]
  have hcomp : ((fun i => (b :: m).getD i false) ∘ Nat.succ) = fun i => m.getD i false := by
    funext i
    simp [Function.comp, List.getD_cons_succ]
  rw [hcomp]
  cases b <;> simp [List.getD_cons_zero]

theorem truePositions_length (mask : List Bool) :
    (truePositions mask).length = countTrue mask := by
  induction mask with
  | nil => rfl
  | cons b m ih =>
    rw [truePositions_cons]
    cases b
    · simpa [countTrue, List.count_cons] using ih
    · simp [countTrue, List.count_cons]
      exact ih

theorem countTrue_le_length (mask : List Bool) : countTrue mask ≤ mask.length :=
  List.count_le_length true mask

theorem getD_set_ne (mask : List Bool) {p q : ℕ} (h : p ≠ q) :
    (mask.set p false).getD q false = mask.getD q false := by
  simp [List.getD_eq_getElem?_getD, List.getElem?_set_ne h]

theorem getD_set_self (mask : List Bool) {p : ℕ} (hp : p < mask.length) :
    (mask.set p false).getD p false = false := by
  simp [List.getD_eq_getElem?_getD, List.getElem?_set_self, hp]

theorem countTrue_set_false {mask : List Bool} {p : ℕ}
    (hp : p < mask.length) (ht : mask.getD p false = true) :
    countTrue mask = countTrue (mask.set p false) + 1 := by
  have hg : mask[p] = true := by rwa [List.getD_eq_getElem _ _ hp] at ht
  have hmem : true ∈ mask := hg ▸ List.getElem_mem hp
  have hpos : 0 < mask.count true := List.count_pos_iff.mpr hmem
  have := List.count_set false true mask p hp
  simp [countTrue, this, hg]
  omega

theorem setFalseAll_cons (m : List Bool) (p : ℕ) (ps : List ℕ) :
    setFalseAll m (p :: ps) = setFalseAll (m.set p false) ps := rfl

theorem setFalseAll_length (m : List Bool) (ps : List ℕ) :
    (setFalseAll m ps).length = m.length := by
  induction ps generalizing m with
  | nil => rfl
  | cons p ps ih => rw [setFalseAll_cons, ih, List.length_set]

theorem getD_setFalseAll_not_mem {m : List Bool} {ps : List ℕ} {q : ℕ} (h : q ∉ ps) :
    (setFalseAll m ps).getD q false = m.getD q false := by
  induction ps generalizing m with
  | nil => rfl
  | cons p ps ih =>
    have hpq : p ≠ q := by
      intro he
      exact h (he ▸ List.mem_cons_self p ps)
    rw [setFalseAll_cons, ih (fun hq => h (List.mem_cons_of_mem _ hq)), getD_set_ne _ hpq]

theorem getD_setFalseAll_mem {m : List Bool} {ps : List ℕ} {q : ℕ}
    (h : q ∈ ps) (hq : q < m.length) :
    (setFalseAll m ps).getD q false = false := by
  induction ps generalizing m with
  | nil => cases h
  | cons p ps ih =>
    rw [setFalseAll_cons]
    by_cases hmem : q ∈ ps
    · exact ih hmem (by rwa [List.length_set])
    · have hqp : q = p := by
        rcases List.mem_cons.mp h with h' | h'
        · exact h'
        · exact absurd h' hmem
      subst hqp
      rw [getD_setFalseAll_not_mem hmem, getD_set_self _ hq]

theorem countTrue_setFalseAll {m : List Bool} {ps : List ℕ}
    (hnd : ps.Nodup)
    (hmem : ∀ p ∈ ps, p < m.length ∧ m.getD p false = true) :
    countTrue m = countTrue (setFalseAll m ps) + ps.length := by
  induction ps generalizing m with
  | nil => simp [setFalseAll]
  | cons p ps ih =>
    have hp := hmem p (List.mem_cons_self _ _)
    rw [setFalseAll_cons]
    have h1 : countTrue m = countTrue (m.set p false) + 1 :=
      countTrue_set_false hp.1 hp.2
    have h2 : countTrue (m.set p false) =
        countTrue (setFalseAll (m.set p false) ps) + ps.length := by
      refine ih (List.Nodup.of_cons hnd) ?_
      intro q hq
      have hqp : q ≠ p := fun he => (List.nodup_cons.mp hnd).1 (he ▸ hq)
      refine ⟨by rw [List.length_set]; exact (hmem q (List.mem_cons_of_mem _ hq)).1, ?_⟩
      rw [getD_set_ne _ hqp.symm]
      exact (hmem q (List.mem_cons_of_mem _ hq)).2
    rw [h1, h2, List.length_cons]
    omega

theorem lookupAll_cons (tr : List ℕ) (i : ℤ) (rest : List ℤ) :
    lookupAll tr (i :: rest) =
      (resolveIdx tr.length i).bind (fun j =>
        tr[j]?.bind (fun p => (lookupAll tr rest).map (p :: ·))) := by
  cases hr : resolveIdx tr.length i with
  | none => simp [lookupAll, hr]
  | some j =>
    cases hj : tr[j]? with
    | none => simp [lookupAll, hr, hj]
    | some p =>
      cases hl : lookupAll tr rest with
      | none => simp [lookupAll, hr, hj, hl]
      | some ps => simp [lookupAll, hr, hj, hl]

theorem lookupAll_length {tr : List ℕ} {idxs : List ℤ} {ps : List ℕ}
    (h : lookupAll tr idxs = some ps) : ps.length = idxs.length := by
  induction idxs generalizing ps with
  | nil =>
    simp only [lookupAll] at h
    cases h
    rfl
  | cons i rest ih =>
    rw [lookupAll_cons] at h
    rcases Option.bind_eq_some.mp h with ⟨j, hj, h2⟩
    rcases Option.bind_eq_some.mp h2 with ⟨p, hp, h3⟩
    rcases Option.map_eq_some'.mp h3 with ⟨ps', hps', rfl⟩
    simp [ih hps']

theorem lookupAll_mem {tr : List ℕ} {idxs : List ℤ} {ps : List ℕ}
    (h : lookupAll tr idxs = some ps) : ∀ p ∈ ps, p ∈ tr := by
  induction idxs generalizing ps with
  | nil =>
    simp only [lookupAll] at h
    cases h
    intro p hp
    cases hp
  | cons i rest ih =>
    rw [lookupAll_cons] at h
    rcases Option.bind_eq_some.mp h with ⟨j, hj, h2⟩
    rcases Option.bind_eq_some.mp h2 with ⟨p, hp, h3⟩
    rcases Option.map_eq_some'.mp h3 with ⟨ps', hps', rfl⟩
    intro q hq
    rcases List.mem_cons.mp hq with rfl | hq'
    · exact List.getElem?_mem hp
    · exact ih hps' q hq'

theorem lookupAll_nonneg {tr : List ℕ} {idxs : List ℤ}
    (h : ∀ i ∈ idxs, 0 ≤ i ∧ i < (tr.length : ℤ)) :
    lookupAll tr idxs = some (idxs.map (fun i => tr.getD i.toNat 0)) := by
  induction idxs with
  | nil => rfl
  | cons i rest ih =>
    have hi := h i (List.mem_cons_self _ _)
    have hlt : i.toNat < tr.length := by omega
    have hr : resolveIdx tr.length i = some i.toNat := by
      unfold resolveIdx
      rw [if_pos ⟨hi.1, hi.2⟩]
    rw [lookupAll_cons, hr, Option.some_bind, List.getElem?_eq_getElem hlt,
      Option.some_bind, ih (fun x hx => h x (List.mem_cons_of_mem _ hx)), Option.map_some',
      List.map_cons, List.getD_eq_getElem tr 0 hlt]

theorem lookupAll_nodup {tr : List ℕ} {idxs : List ℤ} {ps : List ℕ}
    (htr : tr.Nodup)
    (h : ∀ i ∈ idxs, 0 ≤ i ∧ i < (tr.length : ℤ)) (hnd : idxs.Nodup)
    (hl : lookupAll tr idxs = some ps) : ps.Nodup := by
  rw [lookupAll_nonneg h] at hl
  cases hl
  refine List.Nodup.map_on ?_ hnd
  intro x hx y hy hf
  have hxr := h x hx
  have hyr := h y hy
  have hxl : x.toNat < tr.length := by omega
  have hyl : y.toNat < tr.length := by omega
  rw [List.getD_eq_getElem tr 0 hxl, List.getD_eq_getElem tr 0 hyl] at hf
  have := (List.Nodup.getElem_inj_iff htr).mp hf
  omega

theorem label_ok {st : UD} {idxs : List ℤ} {lab : List Item} {st2 : UD}
    (h : st.label idxs = .ok (lab, st2)) :
    ∃ ps, lookupAll st.idxMask idxs = some ps ∧
      (∀ p ∈ ps, st.mask.getD p false = true) ∧
      st.len ≠ 0 ∧
      ps.length = idxs.length ∧
      lab.length = idxs.length ∧
      st2.data = st.data ∧ st2.labelFn = st.labelFn ∧ st2.debug = st.debug ∧
      st2.mask = setFalseAll st.mask ps ∧
      st2.idxMask = truePositions st2.mask ∧
      st2.len = st.len - idxs.length := by
  unfold UD.label at h
  split at h
  · cases h
  next ps hl =>
    refine ⟨ps, hl, ?_⟩
    by_cases hall : ps.all (fun p => st.mask.getD p false) = true
    · by_cases hlen : st.len = 0
      · rw [if_neg (not_not_intro hall), if_pos hlen] at h
        cases h
      · rw [if_neg (not_not_intro hall), if_neg hlen] at h
        simp only [Except.ok.injEq, Prod.mk.injEq] at h
        obtain ⟨h1, h2⟩ := h
        subst h1
        subst h2
        have hplen : ps.length = idxs.length := lookupAll_length hl
        refine ⟨fun p hp => List.all_eq_true.mp hall p hp, hlen, hplen, ?_, rfl, rfl,
          rfl, rfl, rfl, rfl⟩
        cases st.labelFn <;> simp [hplen]
    · rw [if_pos hall] at h
      cases h
theorem acquire_ok {dm : DM} {b : ℕ} {afn : UD → ℕ → List ℤ} {t : List ℕ}
    {lab : List Item} {dm2 : DM}
    (h : dm.acquire b afn = .ok (t, lab, dm2)) :
    (b : ℤ) ≤ dm.ud.len ∧ (afn dm.ud b).length = b ∧
    dm.ud.convertIdx (afn dm.ud b) = some t ∧
    dm.ud.label (afn dm.ud b) = .ok (lab, dm2.ud) ∧
    dm2.labelled = dm.labelled ++ lab ∧
    dm2.oldLabelled = dm.oldLabelled := by
  unfold DM.acquire at h
  split at h
  · cases h
  next hble =>
    rw [not_not] at hble
    refine ⟨hble, ?_⟩
    dsimp only at h
    split at h
    · cases h
    next hshape =>
      rw [not_not] at hshape
      refine ⟨hshape, ?_⟩
      split at h
      · cases h
      next trueIdxs hconv =>
        split at h
        · cases h
        next lab' ud2 hlab =>
          simp only [Except.ok.injEq, Prod.mk.injEq] at h
          obtain ⟨rfl, rfl, rfl⟩ := h
          exact ⟨hconv, hlab, rfl, rfl⟩

theorem good_idxMask_len {st : UD} (hg : st.good) :
    (st.idxMask.length : ℤ) = st.len := by
  rw [hg.2.1, truePositions_length]
  exact hg.2.2

theorem label_succeeds {st : UD} {idxs : List ℤ}
    (hg : st.good) (hlen0 : st.len ≠ 0)
    (hin : ∀ i ∈ idxs, 0 ≤ i ∧ i < st.len) :
    ∃ lab st2, st.label idxs = .ok (lab, st2) := by
  have hin' : ∀ i ∈ idxs, 0 ≤ i ∧ i < (st.idxMask.length : ℤ) := by
    intro i hi
    rw [good_idxMask_len hg]
    exact hin i hi
  have hl := lookupAll_nonneg hin'
  have hall : (idxs.map (fun i => st.idxMask.getD i.toNat 0)).all
      (fun p => st.mask.getD p false) = true := by
    apply List.all_eq_true.mpr
    intro p hp
    have hmem := lookupAll_mem hl p hp
    rw [hg.2.1] at hmem
    exact (mem_truePositions.mp hmem).2
  cases hres : st.label idxs with
  | ok r => exact ⟨r.1, r.2, rfl⟩
  | error e =>
    exfalso
    unfold UD.label at hres
    split at hres
    next hnone => rw [hl] at hnone; cases hnone
    next ps hsome =>
      rw [hl] at hsome
      injection hsome with hps
      subst hps
      rw [if_neg (not_not_intro hall), if_neg hlen0] at hres
      cases hres

theorem label_ne_alreadyLabelled {st : UD} (hg : st.good) (idxs : List ℤ) :
    st.label idxs ≠ .error .alreadyLabelled := by
  unfold UD.label
  split
  · simp
  next ps hl =>
    have hall : ps.all (fun p => st.mask.getD p false) = true := by
      apply List.all_eq_true.mpr
      intro p hp
      have hmem := lookupAll_mem hl p hp
      rw [hg.2.1] at hmem
      exact (mem_truePositions.mp hmem).2
    rw [if_neg (not_not_intro hall)]
    split
    · simp
    · simp

theorem truePositions_replicate_true (n : ℕ) :
    truePositions (List.replicate n true) = List.range n := by
  unfold truePositions
  rw [List.length_replicate]
  apply List.filter_eq_self.mpr
  intro i hi
  rw [List.getD_eq_getElem _ _ (by simpa using List.mem_range.mp hi)]
  simp

theorem countTrue_replicate_true (n : ℕ) :
    countTrue (List.replicate n true) = n := by
  simp [countTrue, List.count_replicate]

theorem good_mkUD (data : List Item) (lf : Option (Item → Item)) (dbg : Bool) :
    (mkUD data lf dbg).good := by
  refine ⟨List.length_replicate _ _, ?_, ?_⟩
  · rw [mkUD, truePositions_replicate_true]
  · simp [mkUD, countTrue_replicate_true]

theorem good_reset (st : UD) : st.reset.good := by
  refine ⟨List.length_replicate _ _, ?_, ?_⟩
  · rw [UD.reset]
    dsimp only
    rw [truePositions_replicate_true]
  · simp [UD.reset, countTrue_replicate_true]

theorem good_label {st st2 : UD} {idxs : List ℤ} {lab : List Item}
    (hg : st.good) (hnd : idxs.Nodup)
    (hin : ∀ i ∈ idxs, 0 ≤ i ∧ i < st.len)
    (h : st.label idxs = .ok (lab, st2)) : st2.good := by
  obtain ⟨ps, hl, hmask, hlen0, hplen, _, hdata, _, _, hmask2, hidx2, hlen2⟩ := label_ok h
  have hin' : ∀ i ∈ idxs, 0 ≤ i ∧ i < (st.idxMask.length : ℤ) := by
    intro i hi
    rw [good_idxMask_len hg]
    exact hin i hi
  have hpnd : ps.Nodup := by
    apply lookupAll_nodup _ hin' hnd hl
    rw [hg.2.1]
    exact truePositions_nodup _
  have hpbound : ∀ p ∈ ps, p < st.mask.length ∧ st.mask.getD p false = true := by
    intro p hp
    have hmem := lookupAll_mem hl p hp
    rw [hg.2.1] at hmem
    exact mem_truePositions.mp hmem
  have hcount : countTrue st.mask = countTrue (setFalseAll st.mask ps) + ps.length :=
    countTrue_setFalseAll hpnd hpbound
  refine ⟨?_, by rw [hidx2], ?_⟩
  · rw [hmask2, setFalseAll_length, hg.1, hdata]
  · rw [hmask2, hlen2, ← hg.2.2, ← hplen]
    omega

theorem acquire_counts {dm : DM} {b : ℕ} {afn : UD → ℕ → List ℤ} {t : List ℕ}
    {lab : List Item} {dm2 : DM}
    (h : dm.acquire b afn = .ok (t, lab, dm2)) :
    dm2.nLabelled = dm.nLabelled + b ∧ dm2.nUnlabelled = dm.nUnlabelled - b ∧
    dm2.oldLabelled = dm.oldLabelled := by
  obtain ⟨hble, hshape, hconv, hlab, happ, hold⟩ := acquire_ok h
  obtain ⟨ps, _, _, _, _, hlablen, _, _, _, _, _, hlen2⟩ := label_ok hlab
  refine ⟨?_, ?_, hold⟩
  · rw [DM.nLabelled, DM.nLabelled, happ, List.length_append, hlablen, hshape]
  · rw [DM.nUnlabelled, DM.nUnlabelled, hlen2, hshape]

theorem runAcquires_conservation {dm dm' : DM} {steps : List (ℕ × (UD → ℕ → List ℤ))}
    (h : runAcquires dm steps = .ok dm') :
    (dm'.nLabelled : ℤ) + dm'.nUnlabelled = (dm.nLabelled : ℤ) + dm.nUnlabelled ∧
    dm'.oldLabelled = dm.oldLabelled := by
  induction steps generalizing dm with
  | nil =>
    simp only [runAcquires] at h
    cases h
    exact ⟨rfl, rfl⟩
  | cons s rest ih =>
    obtain ⟨b, f⟩ := s
    rw [runAcquires] at h
    split at h
    · cases h
    next t lab dm2 hacq =>
      obtain ⟨h1, h2, h3⟩ := acquire_counts hacq
      obtain ⟨ih1, ih2⟩ := ih h
      constructor
      · rw [ih1, h1, h2]
        push_cast
        ring
      · rw [ih2, h3]

theorem acquire_eq_ok {dm : DM} {b : ℕ} {afn : UD → ℕ → List ℤ} {t : List ℕ}
    {lab : List Item} {ud2 : UD}
    (hble : (b : ℤ) ≤ dm.ud.len)
    (hshape : (afn dm.ud b).length = b)
    (hconv : dm.ud.convertIdx (afn dm.ud b) = some t)
    (hlab : dm.ud.label (afn dm.ud b) = .ok (lab, ud2)) :
    dm.acquire b afn = .ok (t, lab, { dm.appendToLabelled lab with ud := ud2 }) := by
  unfold DM.acquire
  rw [if_neg (not_not_intro hble)]
  dsimp only
  rw [if_neg (not_not_intro hshape), hconv, hlab]

theorem acquire_poolExhausted {dm : DM} {b : ℕ} {afn : UD → ℕ → List ℤ}
    (h : ¬ ((b : ℤ) ≤ dm.ud.len)) :
    dm.acquire b afn = .error .poolExhausted := by
  unfold DM.acquire
  rw [if_pos h]

theorem acquire_shapeMismatch {dm : DM} {b : ℕ} {afn : UD → ℕ → List ℤ}
    (hble : (b : ℤ) ≤ dm.ud.len) (h : (afn dm.ud b).length ≠ b) :
    dm.acquire b afn = .error .shapeMismatch := by
  unfold DM.acquire
  rw [if_neg (not_not_intro hble)]
  dsimp only
  rw [if_pos h]

/-- C1: for every sequence of successful `DataManager.acquire` calls after
construction, `n_labelled` minus the baseline size plus `n_unlabelled` equals
the original pool size N; each successful acquire grows the labelled
collection by exactly `b` and shrinks the unlabelled view by exactly `b`. -/
theorem C1_conservation :
    (∀ (data : List Item) (lf : Option (Item → Item)) (dbg : Bool)
       (baseline : List Item) (steps : List (ℕ × (UD → ℕ → List ℤ))) (dm' : DM),
       runAcquires (mkDM baseline (mkUD data lf dbg)) steps = .ok dm' →
       (dm'.nLabelled : ℤ) - (baseline.length : ℤ) + dm'.nUnlabelled =
         (data.length : ℤ)) ∧
    (∀ (dm : DM) (b : ℕ) (afn : UD → ℕ → List ℤ) (t : List ℕ)
       (lab : List Item) (dm2 : DM),
       dm.acquire b afn = .ok (t, lab, dm2) →
       dm2.nLabelled = dm.nLabelled + b ∧ dm2.nUnlabelled = dm.nUnlabelled - b) := by
  constructor
  · intro data lf dbg baseline steps dm' h
    have hc := (runAcquires_conservation h).1
    simp only [mkDM, DM.nLabelled, DM.nUnlabelled, mkUD] at hc
    simp only [DM.nLabelled, DM.nUnlabelled]
    omega
  · intro dm b afn t lab dm2 h
    exact ⟨(acquire_counts h).1, (acquire_counts h).2.1⟩

/-- Witness for C1 at a pool of size 3, baseline of size 1, and two
single-point acquisitions. -/
theorem C1_conservation_witness :
    ((({ oldLabelled := [(9,9)], labelled := [(9,9),(1,1),(2,2)],
         ud := { data := [(1,1),(2,2),(3,3)], labelFn := none, debug := false,
                 mask := [false,false,true], idxMask := [2], len := 1 } } : DM).nLabelled : ℤ)
       - (([(9,9)] : List Item).length : ℤ)
       + ({ oldLabelled := [(9,9)], labelled := [(9,9),(1,1),(2,2)],
            ud := { data := [(1,1),(2,2),(3,3)], labelFn := none, debug := false,
                    mask := [false,false,true], idxMask := [2], len := 1 } } : DM).nUnlabelled
       = (([(1,1),(2,2),(3,3)] : List Item).length : ℤ)) ∧
    (({ oldLabelled := [], labelled := [(1,1)],
        ud := { data := [(1,1)], labelFn := none, debug := false,
                mask := [false], idxMask := [], len := 0 } } : DM).nLabelled
        = (mkDM [] (mkUD [(1,1)] none false)).nLabelled + 1 ∧
      ({ oldLabelled := [], labelled := [(1,1)],
         ud := { data := [(1,1)], labelFn := none, debug := false,
                 mask := [false], idxMask := [], len := 0 } } : DM).nUnlabelled
        = (mkDM [] (mkUD [(1,1)] none false)).nUnlabelled - 1) :=
  ⟨C1_conservation.1 [(1,1),(2,2),(3,3)] none false [(9,9)]
      [(1, fun _ _ => [0]), (1, fun _ _ => [0])] _ rfl,
   C1_conservation.2 (mkDM [] (mkUD [(1,1)] none false)) 1 (fun _ _ => [0])
      [0] [(1,1)] _ rfl⟩

/-- C2 (code bug): `label` is claimed to raise AlreadyLabelledError on a
duplicated or stale request and mutate nothing on failure. In the code the
guard reads the mask only at positions taken from the current translation,
which are true by construction, so it can never fire: labelling the duplicated
request `[0, 0]` on a fresh 2-point pool succeeds and mutates the state
(returning the same point twice and driving the length counter to 0 while one
mask entry is still true); moreover on any state satisfying the bookkeeping
invariant, `label` never returns AlreadyLabelledError. -/
theorem C2_label_duplicate_not_rejected :
    ((((mkUD [(1,1),(2,2)] none false).label [0, 0]).map
        (fun r => (r.1, r.2.mask, r.2.idxMask, r.2.len))) =
      .ok ([(1,1),(1,1)], [false,true], [1], 0)) ∧
    (∀ (st : UD) (idxs : List ℤ), st.good →
      st.label idxs ≠ .error .alreadyLabelled) :=
  ⟨rfl, fun _ idxs hg => label_ne_alreadyLabelled hg idxs⟩

/-- Witness for the universally quantified half of C2's theorem, at a fresh
1-point pool and request `[0]`. -/
theorem C2_label_duplicate_not_rejected_witness :
    (mkUD [(1,1)] none false).label [0] ≠ .error .alreadyLabelled :=
  C2_label_duplicate_not_rejected.2 (mkUD [(1,1)] none false) [0] ⟨rfl, rfl, rfl⟩

/-- C3 as stated is false: `acquire` only checks the shape of the acquisition
function's result, not distinctness, so an acquisition function returning the
duplicated logical indices `[0, 0]` with `b = 2` makes `acquire` succeed and
return the non-distinct absolute indices `[0, 0]`. -/
theorem C3_counterexample :
    ((((mkDM [] (mkUD [(1,1),(2,2)] none false)).acquire 2 (fun _ _ => [0, 0])).map
        (fun r => r.1)) = .ok [0, 0]) ∧ ¬ ([0, 0] : List ℕ).Nodup :=
  ⟨rfl, by decide⟩

/-- C3 (amended): on a good state with a nonempty pool, if
`b <= n_unlabelled` and the acquisition function returns exactly `b` distinct
in-range logical indices, then `acquire(b)` succeeds and returns exactly `b`
distinct absolute indices, each within `[0, N)`, obtained from the logical
indices through the pre-mutation translation (`convert_idx`); if
`b > n_unlabelled` it fails with PoolExhaustedError, and if the acquisition
function returns a result of the wrong shape it fails with
ShapeMismatchError. A duplicate-containing result of the right shape is not
detected (see the counterexample). -/
theorem C3_acquire_cardinality :
    (∀ (dm : DM) (b : ℕ) (afn : UD → ℕ → List ℤ),
       dm.ud.good → dm.ud.len ≠ 0 → (b : ℤ) ≤ dm.ud.len →
       (afn dm.ud b).length = b → (afn dm.ud b).Nodup →
       (∀ i ∈ afn dm.ud b, 0 ≤ i ∧ i < dm.ud.len) →
       ∃ t lab dm2, dm.acquire b afn = .ok (t, lab, dm2) ∧
         dm.ud.convertIdx (afn dm.ud b) = some t ∧
         t.length = b ∧ t.Nodup ∧ ∀ p ∈ t, p < dm.ud.data.length) ∧
    (∀ (dm : DM) (b : ℕ) (afn : UD → ℕ → List ℤ),
       ¬ ((b : ℤ) ≤ dm.ud.len) → dm.acquire b afn = .error .poolExhausted) ∧
    (∀ (dm : DM) (b : ℕ) (afn : UD → ℕ → List ℤ),
       (b : ℤ) ≤ dm.ud.len → (afn dm.ud b).length ≠ b →
       dm.acquire b afn = .error .shapeMismatch) := by
  refine ⟨?_, fun dm b afn h => acquire_poolExhausted h,
    fun dm b afn hble h => acquire_shapeMismatch hble h⟩
  intro dm b afn hg hlen0 hble hshape hnd hin
  obtain ⟨lab, st2, hlab⟩ := label_succeeds hg hlen0 hin
  have hin' : ∀ i ∈ afn dm.ud b, 0 ≤ i ∧ i < (dm.ud.idxMask.length : ℤ) := by
    intro i hi
    rw [good_idxMask_len hg]
    exact hin i hi
  have hconv : dm.ud.convertIdx (afn dm.ud b) =
      some ((afn dm.ud b).map (fun i => dm.ud.idxMask.getD i.toNat 0)) :=
    lookupAll_nonneg hin'
  refine ⟨_, lab, _, acquire_eq_ok hble hshape hconv hlab, hconv, ?_, ?_, ?_⟩
  · rw [List.length_map, hshape]
  · refine lookupAll_nodup ?_ hin' hnd hconv
    rw [hg.2.1]
    exact truePositions_nodup _
  · intro p hp
    have hmem := lookupAll_mem hconv p hp
    rw [hg.2.1] at hmem
    exact hg.1 ▸ (mem_truePositions.mp hmem).1

/-- Witness for C3's amended theorem: a 2-point pool, `b = 1`, and an
acquisition function selecting logical index 1; and the two failure cases at
concrete inputs. -/
theorem C3_acquire_cardinality_witness :
    (∃ t lab dm2,
       (mkDM [] (mkUD [(1,1),(2,2)] none false)).acquire 1 (fun _ _ => [1]) =
         .ok (t, lab, dm2) ∧
       (mkDM [] (mkUD [(1,1),(2,2)] none false)).ud.convertIdx [1] = some t ∧
       t.length = 1 ∧ t.Nodup ∧
       ∀ p ∈ t, p < (mkDM [] (mkUD [(1,1),(2,2)] none false)).ud.data.length) ∧
    ((mkDM [] (mkUD [(1,1)] none false)).acquire 2 (fun _ _ => [0, 1]) =
       .error .poolExhausted) ∧
    ((mkDM [] (mkUD [(1,1),(2,2)] none false)).acquire 2 (fun _ _ => [0]) =
       .error .shapeMismatch) :=
  ⟨C3_acquire_cardinality.1 (mkDM [] (mkUD [(1,1),(2,2)] none false)) 1
      (fun _ _ => [1]) ⟨rfl, rfl, rfl⟩ (by decide) (by decide) rfl (by decide)
      (by decide),
   C3_acquire_cardinality.2.1 (mkDM [] (mkUD [(1,1)] none false)) 2
      (fun _ _ => [0, 1]) (by decide),
   C3_acquire_cardinality.2.2 (mkDM [] (mkUD [(1,1),(2,2)] none false)) 2
      (fun _ _ => [0]) (by decide) (by decide)⟩

/-- C5 as stated is false: with no label-producing function configured and the
debug flag clear, indexing returns the feature alone, not the full
(feature, label) pool item. -/
theorem C5_counterexample :
    (mkUD [(5,7)] none false).getItem 0 = some (.inr 5) ∧
    (mkUD [(5,7)] none false).labelFn = none ∧
    (mkUD [(5,7)] none false).debug = false ∧
    (mkUD [(5,7)] none false).getItem 0 ≠ some (.inl (5,7)) :=
  ⟨rfl, rfl, rfl, by decide⟩

/-- C5 (amended): for `0 <= i < length()`, indexing resolves `i` through the
current translation into the backing dataset at an absolute position that is
still masked in, and returns the full backing item if a label-producing
function **was** configured or the debug flag is set, and the first component
(the feature alone) otherwise. -/
theorem C5_getItem :
    ∀ (st : UD), st.good → ∀ i : ℤ, 0 ≤ i → i < st.len →
    ∃ p it, st.idxMask[i.toNat]? = some p ∧
      st.mask.getD p false = true ∧ p < st.data.length ∧ st.data[p]? = some it ∧
      st.getItem i = some (if st.labelFn.isSome || st.debug then .inl it
                           else .inr it.1) := by
  intro st hg i h0 hlt
  have hml := good_idxMask_len hg
  have hlti : i.toNat < st.idxMask.length := by omega
  obtain ⟨p, hp⟩ : ∃ p, st.idxMask[i.toNat] = p := ⟨_, rfl⟩
  have hmem : p ∈ st.idxMask := hp ▸ List.getElem_mem hlti
  rw [hg.2.1] at hmem
  have hchar := mem_truePositions.mp hmem
  have hpd : p < st.data.length := hg.1 ▸ hchar.1
  refine ⟨p, st.data[p], ?_, hchar.2, hpd, List.getElem?_eq_getElem hpd, ?_⟩
  · rw [List.getElem?_eq_getElem hlti, hp]
  · have hres : resolveIdx st.idxMask.length i = some i.toNat := by
      unfold resolveIdx
      rw [if_pos ⟨h0, by omega⟩]
    unfold UD.getItem
    rw [hres]
    simp only [List.getElem?_eq_getElem hlti, hp, List.getElem?_eq_getElem hpd]
    cases hcb : st.labelFn.isSome || st.debug <;> simp [hcb]

/-- Witness for C5's amended theorem at a fresh 1-point pool in debug mode. -/
theorem C5_getItem_witness :
    ∃ p it, (mkUD [(5,7)] none true).idxMask[(0 : ℤ).toNat]? = some p ∧
      (mkUD [(5,7)] none true).mask.getD p false = true ∧
      p < (mkUD [(5,7)] none true).data.length ∧
      (mkUD [(5,7)] none true).data[p]? = some it ∧
      (mkUD [(5,7)] none true).getItem 0 =
        some (if (mkUD [(5,7)] none true).labelFn.isSome ||
                 (mkUD [(5,7)] none true).debug then .inl it else .inr it.1) :=
  C5_getItem (mkUD [(5,7)] none true) ⟨rfl, rfl, rfl⟩ 0 (by decide) (by decide)

/-- C6 as stated is false: a successful `label` call with a duplicated index
leaves the number of true mask entries different from the reported length. -/
theorem C6_counterexample :
    (((mkUD [(1,1),(2,2)] none false).label [0, 0]).map
       (fun r => ((countTrue r.2.mask : ℤ), r.2.len))) = .ok (1, 0) ∧
    (1 : ℤ) ≠ 0 :=
  ⟨rfl, by decide⟩

/-- C6 (amended): the mask invariant — the number of true mask entries equals
the reported pool length and the translation is exactly the ascending
sequence of still-masked absolute positions — holds after construction, after
`reset`, and after every successful `label` call whose logical indices are
pairwise distinct and in range; on a good state the translation is strictly
ascending and contains exactly the positions where the mask is true. -/
theorem C6_mask_invariant :
    (∀ (data : List Item) (lf : Option (Item → Item)) (dbg : Bool),
       (mkUD data lf dbg).good) ∧
    (∀ st : UD, st.reset.good) ∧
    (∀ (st st2 : UD) (idxs : List ℤ) (lab : List Item),
       st.good → idxs.Nodup → (∀ i ∈ idxs, 0 ≤ i ∧ i < st.len) →
       st.label idxs = .ok (lab, st2) → st2.good) ∧
    (∀ st : UD, st.good →
       (countTrue st.mask : ℤ) = st.len ∧
       st.idxMask.Pairwise (· < ·) ∧
       ∀ p : ℕ, p ∈ st.idxMask ↔ p < st.mask.length ∧ st.mask.getD p false = true) := by
  refine ⟨good_mkUD, good_reset, fun st st2 idxs lab hg hnd hin h =>
    good_label hg hnd hin h, ?_⟩
  intro st hg
  refine ⟨hg.2.2, ?_, ?_⟩
  · rw [hg.2.1]
    exact truePositions_sorted _
  · intro p
    rw [hg.2.1]
    exact mem_truePositions

/-- Witness for C6's amended theorem: the invariant after labelling logical
index 0 out of a fresh 2-point pool, and the characterization on that fresh
pool. -/
theorem C6_mask_invariant_witness :
    ({ data := [(1,1),(2,2)], labelFn := none, debug := false,
       mask := [false, true], idxMask := [1], len := 1 } : UD).good ∧
    ((countTrue (mkUD [(1,1),(2,2)] none false).mask : ℤ) =
        (mkUD [(1,1),(2,2)] none false).len ∧
     (mkUD [(1,1),(2,2)] none false).idxMask.Pairwise (· < ·) ∧
     ∀ p : ℕ, p ∈ (mkUD [(1,1),(2,2)] none false).idxMask ↔
       p < (mkUD [(1,1),(2,2)] none false).mask.length ∧
       (mkUD [(1,1),(2,2)] none false).mask.getD p false = true) :=
  ⟨C6_mask_invariant.2.2.1 (mkUD [(1,1),(2,2)] none false) _ [0] [(1,1)]
      ⟨rfl, rfl, rfl⟩ (by decide) (by decide) rfl,
   C6_mask_invariant.2.2.2 (mkUD [(1,1),(2,2)] none false) ⟨rfl, rfl, rfl⟩⟩

theorem enterTL_eq (d : Bool) : enterTL d = (true, d) := by
  cases d <;> rfl

theorem runScopes_id (t : Scopes) : ∀ d : Bool, runScopes t d = d := by
  induction t with
  | done => intro d; rfl
  | node inner next ih1 ih2 =>
    intro d
    simp only [runScopes, enterTL_eq]
    rw [ih1, ih2]
    cases d <;> rfl

/-- C8: the scoped raw/processed toggle sets the debug flag inside the scope,
and under arbitrary well-nested use of the scope the flag is restored to its
exact value prior to entry. -/
theorem C8_true_labels_scoped :
    ∀ d : Bool, (enterTL d).1 = true ∧ ∀ t : Scopes, runScopes t d = d := by
  intro d
  exact ⟨by cases d <;> rfl, fun t => runScopes_id t d⟩

/-- C4: `Annealer.weight` is exactly the piecewise schedule written in the
specification, and at T1=0, T2=700, alpha=3 takes the values 0, 3/2, 3, 3 at
steps 0, 350, 700, 1000. -/
theorem C4_annealer_schedule :
    (∀ a : Annealer, a.weight = specWeight a.step a.T1 a.T2 a.alpha) ∧
    (Annealer.weight ⟨0, 0, 700, 3⟩ = 0 ∧
     Annealer.weight ⟨350, 0, 700, 3⟩ = 3/2 ∧
     Annealer.weight ⟨700, 0, 700, 3⟩ = 3 ∧
     Annealer.weight ⟨1000, 0, 700, 3⟩ = 3) := by
  constructor
  · intro a
    unfold Annealer.weight specWeight
    split_ifs with h1 h2
    · rfl
    · rfl
    · rw [mul_comm, mul_div_assoc]
  · refine ⟨by norm_num [Annealer.weight], by norm_num [Annealer.weight],
      by norm_num [Annealer.weight], by norm_num [Annealer.weight]⟩

theorem ramp_nonneg {t T1 T2 : ℤ} {a : ℚ} (h1 : T1 ≤ t) (h2 : t ≤ T2)
    (ha : 0 ≤ a) : 0 ≤ ((t - T1 : ℤ) : ℚ) / ((T2 - T1 : ℤ) : ℚ) * a := by
  apply mul_nonneg _ ha
  apply div_nonneg
  · exact_mod_cast sub_nonneg.mpr h1
  · exact_mod_cast sub_nonneg.mpr (le_trans h1 h2)

theorem ramp_le_alpha {t T1 T2 : ℤ} {a : ℚ} (h1 : T1 ≤ t) (h2 : t ≤ T2)
    (ha : 0 ≤ a) : ((t - T1 : ℤ) : ℚ) / ((T2 - T1 : ℤ) : ℚ) * a ≤ a := by
  rcases eq_or_lt_of_le (le_trans h1 h2) with heq | hlt
  · rw [← heq, sub_self]
    norm_num
    exact ha
  · have hd : (0 : ℚ) < ((T2 - T1 : ℤ) : ℚ) := by exact_mod_cast sub_pos.mpr hlt
    have hnum : ((t - T1 : ℤ) : ℚ) ≤ ((T2 - T1 : ℤ) : ℚ) := by
      exact_mod_cast sub_le_sub_right h2 T1
    calc ((t - T1 : ℤ) : ℚ) / ((T2 - T1 : ℤ) : ℚ) * a ≤ 1 * a := by
          apply mul_le_mul_of_nonneg_right _ ha
          rw [div_le_one hd]
          exact hnum
      _ = a := one_mul a

theorem ramp_mono {t T1 T2 : ℤ} {a : ℚ} (h1 : T1 ≤ t) (h2 : t + 1 ≤ T2)
    (ha : 0 ≤ a) :
    ((t - T1 : ℤ) : ℚ) / ((T2 - T1 : ℤ) : ℚ) * a ≤
      ((t + 1 - T1 : ℤ) : ℚ) / ((T2 - T1 : ℤ) : ℚ) * a := by
  have hd : (0 : ℚ) < ((T2 - T1 : ℤ) : ℚ) := by
    have hlt : T1 < T2 := by omega
    exact_mod_cast sub_pos.mpr hlt
  apply mul_le_mul_of_nonneg_right _ ha
  have hnum : ((t - T1 : ℤ) : ℚ) ≤ ((t + 1 - T1 : ℤ) : ℚ) := by
    have : (t - T1 : ℤ) ≤ t + 1 - T1 := by omega
    exact_mod_cast this
  exact (div_le_div_iff_of_pos_right hd).mpr hnum

/-- C7 as stated (for *every* constructor parameter) is false: with a
negative `alpha` the weight strictly decreases when the counter crosses into
the ramp, e.g. for T1=0, T2=1, alpha=-1 at step 0. -/
theorem C7_counterexample :
    (Annealer.step' ⟨0, 0, 1, -1⟩).weight < (⟨0, 0, 1, -1⟩ : Annealer).weight := by
  norm_num [Annealer.weight, Annealer.step']

/-- C7 (amended): for every Annealer with nonnegative `alpha` (as in every
configuration the library constructs), advancing the step counter by one via
`step()` never decreases `weight`. -/
theorem C7_weight_monotone :
    ∀ a : Annealer, 0 ≤ a.alpha → a.weight ≤ a.step'.weight := by
  intro a ha
  unfold Annealer.step' Annealer.weight
  dsimp only
  split_ifs with h1 h2 h3 h4 h5 h6 h7 h8
  · exact le_refl _
  · exact ha
  · exact ramp_nonneg (by omega) (by omega) ha
  · omega
  · exact le_refl _
  · omega
  · omega
  · exact ramp_le_alpha (by omega) (by omega) ha
  · exact ramp_mono (by omega) (by omega) ha

/-- Witness for C7's amended theorem at T1=0, T2=700, alpha=3, step 5. -/
theorem C7_weight_monotone_witness :
    (⟨5, 0, 700, 3⟩ : Annealer).weight ≤ (Annealer.step' ⟨5, 0, 700, 3⟩).weight :=
  C7_weight_monotone ⟨5, 0, 700, 3⟩ (by norm_num)

/-- C10: with T1 < T2 the two guards of `weight` ensure the linear-ramp
branch's denominator T2 - T1 is nonzero; with T1 = T2 and the counter equal
to that common value, neither guard fires and the denominator is zero. -/
theorem C10_ramp_guard :
    ∀ a : Annealer,
      (a.T1 < a.T2 → a.rampTaken → a.T2 - a.T1 ≠ 0) ∧
      (a.T1 = a.T2 → a.step = a.T1 → a.rampTaken ∧ a.T2 - a.T1 = 0) := by
  intro a
  unfold Annealer.rampTaken
  constructor
  · intro h _
    omega
  · intro h1 h2
    refine ⟨⟨?_, ?_⟩, ?_⟩ <;> omega

/-- Witness for C10 at T1=0 < T2=700 with the ramp branch taken (step 100),
and at the degenerate T1=T2=step=7. -/
theorem C10_ramp_guard_witness :
    ((⟨100, 0, 700, 3⟩ : Annealer).T2 - (⟨100, 0, 700, 3⟩ : Annealer).T1 ≠ 0) ∧
    ((⟨7, 7, 7, 3⟩ : Annealer).rampTaken ∧
     (⟨7, 7, 7, 3⟩ : Annealer).T2 - (⟨7, 7, 7, 3⟩ : Annealer).T1 = 0) :=
  ⟨(C10_ramp_guard ⟨100, 0, 700, 3⟩).1 (by decide) ⟨by decide, by decide⟩,
   (C10_ramp_guard ⟨7, 7, 7, 3⟩).2 rfl rfl⟩

theorem argsortDesc_perm (v : List ℚ) :
    (argsortDesc v).Perm (List.range v.length) :=
  List.mergeSort_perm _ _

theorem argsortDesc_length (v : List ℚ) : (argsortDesc v).length = v.length := by
  rw [argsortDesc, List.length_mergeSort, List.length_range]

theorem argsortDesc_nodup (v : List ℚ) : (argsortDesc v).Nodup :=
  (argsortDesc_perm v).symm.nodup (List.nodup_range _)

theorem mem_argsortDesc {v : List ℚ} {i : ℕ} :
    i ∈ argsortDesc v ↔ i < v.length := by
  rw [(argsortDesc_perm v).mem_iff, List.mem_range]

theorem argsortDesc_sorted (v : List ℚ) :
    (argsortDesc v).Pairwise (fun i j => v.getD j 0 ≤ v.getD i 0) := by
  have htrans : ∀ a b c : ℕ, (fun i j => decide (v.getD j 0 ≤ v.getD i 0)) a b = true →
      (fun i j => decide (v.getD j 0 ≤ v.getD i 0)) b c = true →
      (fun i j => decide (v.getD j 0 ≤ v.getD i 0)) a c = true := by
    intro a b c hab hbc
    simp only [decide_eq_true_eq] at *
    exact le_trans hbc hab
  have htotal : ∀ a b : ℕ, ((fun i j => decide (v.getD j 0 ≤ v.getD i 0)) a b ||
      (fun i j => decide (v.getD j 0 ≤ v.getD i 0)) b a) = true := by
    intro a b
    simp only [Bool.or_eq_true, decide_eq_true_eq]
    exact le_total _ _
  have h := @List.sorted_mergeSort ℕ (fun i j => decide (v.getD j 0 ≤ v.getD i 0))
    htrans htotal (List.range v.length)
  refine List.Pairwise.imp ?_ h
  intro i j hij
  exact of_decide_eq_true hij

theorem argsortDesc_top (v : List ℚ) (b : ℕ) :
    ∀ i ∈ (argsortDesc v).take b, ∀ j ∈ (argsortDesc v).drop b,
      v.getD j 0 ≤ v.getD i 0 := by
  have h := argsortDesc_sorted v
  rw [← List.take_append_drop b (argsortDesc v)] at h
  exact (List.pairwise_append.mp h).2.2

/-- C9: `MaxEnt.__call__` over a pool of `n` items with `b <= n` returns
exactly `b` distinct logical indices in `[0, n)`, ordered by descending
entropy score (a top-b by entropy), and stores the full `n`-entry score
vector in `recent_score`; it fails with the non-finite-score error whenever
any computed entropy is non-finite. -/
theorem C9_maxent :
    ∀ (e : ℚ → ℚ) (preds : List (List F)) (b : ℕ),
      ((preds.map (entropyRow e)).all F.isFinite = false →
        maxEntCall e preds b = .error .nonFiniteScore) ∧
      (b ≤ preds.length → (preds.map (entropyRow e)).all F.isFinite = true →
        ∃ sel scores, maxEntCall e preds b = .ok (sel, scores) ∧
          scores = preds.map (entropyRow e) ∧
          scores.length = preds.length ∧
          sel.length = b ∧ sel.Nodup ∧
          (∀ i ∈ sel, i < preds.length) ∧
          sel.Pairwise (fun i j =>
            (scores.map F.val).getD j 0 ≤ (scores.map F.val).getD i 0) ∧
          (∀ i ∈ sel, ∀ j : ℕ, j < preds.length → j ∉ sel →
            (scores.map F.val).getD j 0 ≤ (scores.map F.val).getD i 0)) := by
  intro e preds b
  constructor
  · intro hbad
    unfold maxEntCall
    rw [if_pos (by simp [hbad])]
  · intro hb hfin
    unfold maxEntCall
    rw [if_neg (not_not_intro hfin)]
    refine ⟨_, _, rfl, rfl, by rw [List.length_map], ?_, ?_, ?_, ?_, ?_⟩
    · rw [List.length_take, argsortDesc_length, List.length_map, List.length_map]
      omega
    · exact List.Nodup.sublist (List.take_sublist _ _) (argsortDesc_nodup _)
    · intro i hi
      have := mem_argsortDesc.mp ((List.take_sublist _ _).subset hi)
      rwa [List.length_map, List.length_map] at this
    · exact List.Pairwise.sublist (List.take_sublist _ _) (argsortDesc_sorted _)
    · intro i hi j hj hnot
      have hjmem : j ∈ argsortDesc ((preds.map (entropyRow e)).map F.val) := by
        rw [mem_argsortDesc, List.length_map, List.length_map]
        exact hj
      rw [← List.take_append_drop b
        (argsortDesc ((preds.map (entropyRow e)).map F.val))] at hjmem
      rcases List.mem_append.mp hjmem with hjt | hjd
      · exact absurd hjt hnot
      · exact argsortDesc_top _ b i hi j hjd

/-- Witness for C9 at a concrete two-item pool (finite scores, b = 1) and a
concrete one-item pool with a non-finite score. -/
theorem C9_maxent_witness :
    (∃ sel scores,
       maxEntCall (fun _ => 1) [[F.fin 0], [F.fin (-1)]] 1 = .ok (sel, scores) ∧
       scores = [[F.fin 0], [F.fin (-1)]].map (entropyRow (fun _ => 1)) ∧
       scores.length = ([[F.fin 0], [F.fin (-1)]] : List (List F)).length ∧
       sel.length = 1 ∧ sel.Nodup ∧
       (∀ i ∈ sel, i < ([[F.fin 0], [F.fin (-1)]] : List (List F)).length) ∧
       sel.Pairwise (fun i j =>
         (scores.map F.val).getD j 0 ≤ (scores.map F.val).getD i 0) ∧
       (∀ i ∈ sel, ∀ j : ℕ, j < ([[F.fin 0], [F.fin (-1)]] : List (List F)).length →
         j ∉ sel →
         (scores.map F.val).getD j 0 ≤ (scores.map F.val).getD i 0)) ∧
    maxEntCall (fun _ => 1) [[F.nonfin]] 0 = .error .nonFiniteScore :=
  ⟨(C9_maxent (fun _ => 1) [[F.fin 0], [F.fin (-1)]] 1).2 (by decide) rfl,
   (C9_maxent (fun _ => 1) [[F.nonfin]] 0).1 rfl⟩

end ALR
